import Mathlib

/-!
Verification of the image-to-G-code conversion pipeline (Go sources:
`gcode.go` plus the loader/classifier files).  The Go functions are
shallowly embedded as executable Lean definitions: machine integers become
`Int`/`Nat` (with explicit `% 256` where `uint8` conversions occur),
`float64` quantities that only carry exact values in the claims of interest
become `ℚ`, the mutable `visited [][]bool` grids become functional boolean
grids threaded through the traversals, and Go `map` values consumed in
iteration order become association lists whose order is quantified over.
-/

namespace GoGcode

/-- A pixel sample as returned by Go's `image.Image.At(x,y).RGBA()`:
four 16-bit channel values (alpha-premultiplied). -/
structure Pix where
  r : Nat
  g : Nat
  b : Nat
  a : Nat
deriving Repr, DecidableEq

/-- A decoded pixel grid: `width`/`height` are `bounds.Dx()`/`bounds.Dy()`,
and `pix x y` is the sample at the bounds-relative coordinate `(x, y)`
(the Go code always reads `img.At(bounds.Min.X+x, bounds.Min.Y+y)`). -/
structure Img where
  width : Nat
  height : Nat
  pix : Int → Int → Pix

/-- `Point` from gcode.go: integer pixel coordinates. -/
structure Point where
  x : Int
  y : Int
deriving Repr, DecidableEq

/-- `Path` from gcode.go: an ordered list of points. -/
structure Path where
  points : List Point
deriving Repr, DecidableEq

/-- `getGrayscale` from gcode.go: 8-bit luma of the pixel.
`uint8(r >> 8)` is modeled as `r / 256 % 256`; the arithmetic is the Go
`int` computation `(299*r8 + 587*g8 + 114*b8) / 1000`. -/
def getGrayscale (img : Img) (x y : Int) : Nat :=
  let p := img.pix x y
  (299 * (p.r / 256 % 256) + 587 * (p.g / 256 % 256) + 114 * (p.b / 256 % 256)) / 1000

/-- The in-bounds predicate corresponding to indexing `visited[y][x]` and the
`nx < 0 || ny < 0 || nx >= bounds.Dx() || ny >= bounds.Dy()` guards. -/
def InB (img : Img) (x y : Int) : Prop :=
  0 ≤ x ∧ x < (img.width : Int) ∧ 0 ≤ y ∧ y < (img.height : Int)

instance (img : Img) (x y : Int) : Decidable (InB img x y) := by
  unfold InB; infer_instance

/-- The `visited` grid of a traversal pass (`[][]bool` in Go), modeled as a
boolean function of the coordinates, `false` everywhere initially. -/
abbrev V := Int → Int → Bool

/-- `visited[y][x] = true`. -/
def vset (v : V) (x y : Int) : V :=
  fun a b => if a = x ∧ b = y then true else v a b

/-- `simplifyPath`'s main loop (gcode.go lines 74-80): walk the remaining
points, keeping a point only when its x- or y-distance from the last kept
point exceeds the tolerance.  Returns the kept list and the final `prev`. -/
def simplifyLoop (tolerance : ℚ) : Point → List Point → List Point → List Point × Point
  | prev, [], acc => (acc, prev)
  | prev, current :: rest, acc =>
    if ((current.x - prev.x).natAbs : ℚ) > tolerance ∨ ((current.y - prev.y).natAbs : ℚ) > tolerance then
      simplifyLoop tolerance current rest (acc ++ [current])
    else
      simplifyLoop tolerance prev rest acc

/-- The body of `simplifyPath` for a path `p0 :: rest` of length ≥ 3: run
the decimation loop from the first point, then force-append the original
final point when the kept list has more than one element and does not
already end with it (gcode.go lines 82-84). -/
def simplifyTail (tolerance : ℚ) (p0 : Point) (rest : List Point) : List Point :=
  let result := (simplifyLoop tolerance p0 rest [p0]).1
  let lastPt := (p0 :: rest).getLast (List.cons_ne_nil p0 rest)
  if 1 < result.length ∧ result.getLastD p0 ≠ lastPt then result ++ [lastPt]
  else result

/-- `simplifyPath` from gcode.go.  `math.Abs(float64(current.x-prev.x))` is
exact on integers, so the comparison is modeled over `ℚ` (every finite
`float64` tolerance is a rational). -/
def simplifyPath (points : List Point) (tolerance : ℚ) : List Point :=
  if points.length < 3 then points
  else
    match points with
    | [] => []
    | p0 :: rest => simplifyTail tolerance p0 rest

/-- The 8-neighbor direction table used by `isEdgePixel` and `tracePath`. -/
def directions8 : List (Int × Int) :=
  [(-1, 0), (1, 0), (0, -1), (0, 1), (-1, -1), (-1, 1), (1, -1), (1, 1)]

/-- The 4-neighbor direction table used by `floodFill`. -/
def directions4 : List (Int × Int) :=
  [(-1, 0), (1, 0), (0, -1), (0, 1)]

/-- `isEdgePixel` from gcode.go: a dark pixel (gray < 230) is an edge pixel
when some 8-neighbor is out of bounds or has gray ≥ 230. -/
def isEdgePixel (img : Img) (x y : Int) : Bool :=
  if 230 ≤ getGrayscale img x y then false
  else
    directions8.any fun dir =>
      let nx := x + dir.1
      let ny := y + dir.2
      decide (nx < 0 ∨ ny < 0 ∨ (img.width : Int) ≤ nx ∨ (img.height : Int) ≤ ny) ||
        decide (230 ≤ getGrayscale img nx ny)

/-- The neighbor-selection loop of `tracePath` (gcode.go lines 203-222):
scan the direction table, keeping the in-bounds, unvisited, dark edge
neighbor at the strictly smallest distance.  The Euclidean distances
`math.Hypot` compares are only `1` and `√2`, so the squared distance
(here `d.1*d.1 + d.2*d.2` as a `Nat`) induces the same strict order. -/
def pickNextAux (img : Img) (v : V) (x y : Int) :
    List (Int × Int) → Option (Nat × Int × Int) → Option (Nat × Int × Int)
  | [], best => best
  | dir :: dirs, best =>
    let nx := x + dir.1
    let ny := y + dir.2
    if nx < 0 ∨ ny < 0 ∨ (img.width : Int) ≤ nx ∨ (img.height : Int) ≤ ny then
      pickNextAux img v x y dirs best
    else if v nx ny then
      pickNextAux img v x y dirs best
    else if getGrayscale img nx ny < 230 ∧ isEdgePixel img nx ny then
      let dist := (dir.1 * dir.1 + dir.2 * dir.2).toNat
      match best with
      | none => pickNextAux img v x y dirs (some (dist, nx, ny))
      | some (bd, bx, bYY) =>
        if dist < bd then pickNextAux img v x y dirs (some (dist, nx, ny))
        else pickNextAux img v x y dirs (some (bd, bx, bYY))
    else
      pickNextAux img v x y dirs best

/-- The greedy walk of `tracePath` (the `for foundNext` loop).  Each
iteration moves to the chosen neighbor, appends it to the path and marks it
visited.  The loop marks a fresh pixel every iteration, so fuel
`width * height` never runs out; the invariants proved below hold for any
fuel. -/
def tracePathAux (img : Img) : Nat → Int → Int → List Point → V → List Point × V
  | 0, _, _, pts, v => (pts, v)
  | fuel + 1, x, y, pts, v =>
    match pickNextAux img v x y directions8 none with
    | none => (pts, v)
    | some (_, nx, ny) => tracePathAux img fuel nx ny (pts ++ [⟨nx, ny⟩]) (vset v nx ny)

/-- `tracePath` from gcode.go: start the path at the seed, mark it visited,
then run the greedy walk.  Returns the path and the updated visited grid. -/
def tracePath (img : Img) (startX startY : Int) (v : V) : Path × V :=
  let st := tracePathAux img (img.width * img.height) startX startY
    [⟨startX, startY⟩] (vset v startX startY)
  (⟨st.1⟩, st.2)

/-- Row-major scan order of the grid: `y` outer, `x` inner, exactly the
nested loops of `extractOutlinePaths` / `extractFillRegions`. -/
def scanPts (w h : Nat) : List Point :=
  (List.range h).flatMap fun (y : Nat) =>
    (List.range w).map fun (x : Nat) => ⟨(x : Int), (y : Int)⟩

/-- One iteration of the `extractOutlinePaths` scan body
(gcode.go lines 101-117). -/
def outStep (img : Img) (st : V × List Path) (p : Point) : V × List Path :=
  if st.1 p.x p.y then st
  else if 230 ≤ getGrayscale img p.x p.y then (vset st.1 p.x p.y, st.2)
  else if isEdgePixel img p.x p.y then
    let tr := tracePath img p.x p.y st.1
    (vset tr.2 p.x p.y, st.2 ++ [tr.1])
  else (vset st.1 p.x p.y, st.2)

/-- `extractOutlinePaths` from gcode.go.  The `threshold` parameter is
accepted and, as in the Go source, never used (all tests are against the
constant 230). -/
def extractOutlinePaths (img : Img) (threshold : Nat) : List Path :=
  ((scanPts img.width img.height).foldl (outStep img) ((fun _ _ => false), [])).2

/-- The inner neighbor loop of `floodFill` (gcode.go lines 250-266): for
each 4-neighbor that is in bounds, unvisited and dark, append it to the
region and the queue and mark it visited.  Note that, unlike `tracePath`,
no `isEdgePixel` test is made. -/
def fillNbrs (img : Img) (cx cy : Int) :
    List (Int × Int) → List Point × List Point × V → List Point × List Point × V
  | [], st => st
  | dir :: dirs, (pts, queue, v) =>
    let nx := cx + dir.1
    let ny := cy + dir.2
    if nx < 0 ∨ ny < 0 ∨ (img.width : Int) ≤ nx ∨ (img.height : Int) ≤ ny then
      fillNbrs img cx cy dirs (pts, queue, v)
    else if v nx ny then
      fillNbrs img cx cy dirs (pts, queue, v)
    else if getGrayscale img nx ny < 230 then
      fillNbrs img cx cy dirs (pts ++ [⟨nx, ny⟩], queue ++ [⟨nx, ny⟩], vset v nx ny)
    else
      fillNbrs img cx cy dirs (pts, queue, v)

/-- The BFS loop of `floodFill` (`for len(queue) > 0`).  Every enqueued
pixel is marked visited at enqueue time, so at most `width*height` pixels
are ever enqueued and fuel `width*height + 1` never runs out; the
invariants proved below hold for any fuel. -/
def floodFillAux (img : Img) : Nat → List Point → List Point → V → List Point × V
  | 0, _, pts, v => (pts, v)
  | _ + 1, [], pts, v => (pts, v)
  | fuel + 1, curr :: rest, pts, v =>
    let st := fillNbrs img curr.x curr.y directions4 (pts, rest, v)
    floodFillAux img fuel st.2.1 st.1 st.2.2

/-- `floodFill` from gcode.go: seed the region and queue with the start
pixel, mark it visited, then run the BFS. -/
def floodFill (img : Img) (startX startY : Int) (v : V) : Path × V :=
  let st := floodFillAux img (img.width * img.height + 1)
    [⟨startX, startY⟩] [⟨startX, startY⟩] (vset v startX startY)
  (⟨st.1⟩, st.2)

/-- One iteration of the `extractFillRegions` scan body
(gcode.go lines 135-151). -/
def fillStep (img : Img) (st : V × List Path) (p : Point) : V × List Path :=
  if st.1 p.x p.y then st
  else if 230 ≤ getGrayscale img p.x p.y then (vset st.1 p.x p.y, st.2)
  else if ¬ isEdgePixel img p.x p.y then
    let fl := floodFill img p.x p.y st.1
    (vset fl.2 p.x p.y, st.2 ++ [fl.1])
  else (vset st.1 p.x p.y, st.2)

/-- `extractFillRegions` from gcode.go.  As in the Go source the
`threshold` parameter is never used. -/
def extractFillRegions (img : Img) (threshold : Nat) : List Path :=
  ((scanPts img.width img.height).foldl (fillStep img) ((fun _ _ => false), [])).2

/-- All points collected by a list of paths (the union, with multiplicity,
of the paths' point lists). -/
def allPts (paths : List Path) : List Point :=
  paths.flatMap Path.points

/-- `getBoundingBox` from gcode.go: fold min/max over the point list
(the Go loop revisits `points[0]`, which is idempotent). -/
def getBoundingBox : List Point → Int × Int × Int × Int
  | [] => (0, 0, 0, 0)
  | p :: ps =>
    (p :: ps).foldl
      (fun bb q => (min bb.1 q.x, min bb.2.1 q.y, max bb.2.2.1 q.x, max bb.2.2.2 q.y))
      (p.x, p.y, p.x, p.y)

/-- The per-row membership test `pointMap[y] != nil && pointMap[y][x]` of
`fillOptimizedZigZag`: the map is built from exactly the region's points. -/
def memberFn (points : List Point) (y x : Int) : Bool :=
  points.any fun p => p.y = y ∧ p.x = x

/-- The left-to-right scanline loop of `fillOptimizedZigZag`
(gcode.go lines 330-339): `ss` is `startSegment` with Go's `-1` sentinel.
Fuel `(maxX - minX + 1).toNat` runs the loop to completion exactly. -/
def ltrScan (mem : Int → Bool) (maxX : Int) :
    Nat → Int → Int → List (Int × Int) → List (Int × Int) × Int
  | 0, _, ss, acc => (acc, ss)
  | fuel + 1, x, ss, acc =>
    if maxX < x then (acc, ss)
    else if mem x then ltrScan mem maxX fuel (x + 1) (if ss = -1 then x else ss) acc
    else if ss ≠ -1 then ltrScan mem maxX fuel (x + 1) (-1) (acc ++ [(ss, x - 1)])
    else ltrScan mem maxX fuel (x + 1) ss acc

/-- The right-to-left scanline loop of `fillOptimizedZigZag`
(gcode.go lines 316-325). -/
def rtlScan (mem : Int → Bool) (minX : Int) :
    Nat → Int → Int → List (Int × Int) → List (Int × Int) × Int
  | 0, _, ss, acc => (acc, ss)
  | fuel + 1, x, ss, acc =>
    if x < minX then (acc, ss)
    else if mem x then rtlScan mem minX fuel (x - 1) (if ss = -1 then x else ss) acc
    else if ss ≠ -1 then rtlScan mem minX fuel (x - 1) (-1) (acc ++ [(x + 1, ss)])
    else rtlScan mem minX fuel (x - 1) ss acc

/-- One scanline of `fillOptimizedZigZag`: run the directional loop and
flush the trailing open segment (gcode.go lines 326-328 and 340-342). -/
def rowSegments (mem : Int → Bool) (minX maxX : Int) (fromRight : Bool) : List (Int × Int) :=
  if fromRight then
    let st := rtlScan mem minX ((maxX - minX + 1).toNat) maxX (-1) []
    if st.2 ≠ -1 then st.1 ++ [(minX, st.2)] else st.1
  else
    let st := ltrScan mem maxX ((maxX - minX + 1).toNat) minX (-1) []
    if st.2 ≠ -1 then st.1 ++ [(st.2, maxX)] else st.1

/-- The scanline loop of `fillOptimizedZigZag` (`for y := minY; y <= maxY;
y += lineSpacing` with `lineSpacing = 3`), producing each visited row's
accumulated segments.  `fromRight` is `(y-minY)%2 == 1`.  Fuel
`(maxY - minY).toNat / 3 + 1` runs the loop to completion exactly. -/
def zigzagRows (memxy : Int → Int → Bool) (minX maxX minY maxY : Int) :
    Nat → Int → List (Int × List (Int × Int))
  | 0, _ => []
  | fuel + 1, y =>
    if maxY < y then []
    else
      (y, rowSegments (memxy y) minX maxX (decide ((y - minY) % 2 = 1))) ::
        zigzagRows memxy minX maxX minY maxY fuel (y + 3)

/-- All segments accumulated by `fillOptimizedZigZag` over all scanned
rows, tagged with their row: entries are `(y, startX, endX)`. -/
def zigzagSegments (minX minY maxX maxY : Int) (points : List Point) : List (Int × Int × Int) :=
  (zigzagRows (memberFn points) minX maxX minY maxY ((maxY - minY).toNat / 3 + 1) minY).flatMap
    fun row => row.2.map fun s => (row.1, s.1, s.2)

/-- `scaleX := targetWidth / float64(imgWidth)` (gcode.go lines 14-15),
over exact rationals. -/
def scaleFor (target : ℚ) (pixels : Nat) : ℚ := target / (pixels : ℚ)

/-- The pixel-to-machine transform of the emitter
(gcode.go lines 33-34 and 350-352): `offset + float64(c)*scale`. -/
def transformCoord (offset scale : ℚ) (c : Int) : ℚ := offset + (c : ℚ) * scale

/-- Three-digit zero padding for the fractional part of `%.3f`. -/
def pad3 (n : Nat) : String :=
  if n < 10 then "00" ++ toString n
  else if n < 100 then "0" ++ toString n
  else toString n

/-- Model of Go's `%.3f` formatting over exact rationals: round to the
nearest thousandth and print sign, integer part and three decimals. -/
def fmt3 (q : ℚ) : String :=
  let m : Int := round (q * 1000)
  (if m < 0 then "-" else "") ++ toString (m.natAbs / 1000) ++ "." ++ pad3 (m.natAbs % 1000)

/-- One motion command of the outline emitter (gcode.go lines 36-41):
a rapid move plus tool-on for the first point, a linear move otherwise. -/
def pointCmdStr (first : Bool) (x y : ℚ) : String :=
  if first then "G0 X" ++ fmt3 x ++ " Y" ++ fmt3 y ++ "\nM3 S1000\n"
  else "G1 X" ++ fmt3 x ++ " Y" ++ fmt3 y ++ "\n"

/-- The per-path emission loop of `ConvertToGCode` (gcode.go lines 32-42). -/
def emitPathStr (offset sx sy : ℚ) : List Point → String
  | [] => ""
  | p :: rest =>
    pointCmdStr true (transformCoord offset sx p.x) (transformCoord offset sy p.y) ++
      String.join (rest.map fun q =>
        pointCmdStr false (transformCoord offset sx q.x) (transformCoord offset sy q.y))

/-- The outline loop body of `ConvertToGCode` (gcode.go lines 23-43): paths
with fewer than 5 points are skipped, the rest emit `M5` and the simplified
path at tolerance `1.0`. -/
def outlinePathStr (offset sx sy : ℚ) (path : Path) : String :=
  if path.points.length < 5 then ""
  else "M5\n" ++ emitPathStr offset sx sy (simplifyPath path.points 1)

/-- The per-segment emission of `fillOptimizedZigZag`
(gcode.go lines 345-357): segments shorter than 3 are skipped, the rest
emit rapid-move/tool-on, a linear move at the same `y`, and tool-off. -/
def segStr (offset sx sy : ℚ) (y : Int) (seg : Int × Int) : String :=
  if seg.2 - seg.1 < 3 then ""
  else
    "G0 X" ++ fmt3 (transformCoord offset sx seg.1) ++ " Y" ++
        fmt3 (transformCoord offset sy y) ++ "\nM3 S1000\n" ++
      ("G1 X" ++ fmt3 (transformCoord offset sx seg.2) ++ " Y" ++
        fmt3 (transformCoord offset sy y) ++ "\n" ++ "M5\n")

/-- `fillOptimizedZigZag` from gcode.go, as the text it appends to the
string builder. -/
def fillOptimizedZigZag (minX minY maxX maxY : Int) (points : List Point)
    (offset sx sy : ℚ) : String :=
  String.join
    ((zigzagRows (memberFn points) minX maxX minY maxY ((maxY - minY).toNat / 3 + 1) minY).map
      fun row => String.join (row.2.map (segStr offset sx sy row.1)))

/-- The fill loop body of `ConvertToGCode` (gcode.go lines 45-52): a region
with fewer than 200 points is skipped (`continue`), the rest are passed
with their bounding box to `fillOptimizedZigZag`. -/
def fillRegionStr (offset sx sy : ℚ) (region : Path) : String :=
  if region.points.length < 200 then ""
  else
    let bb := getBoundingBox region.points
    fillOptimizedZigZag bb.1 bb.2.1 bb.2.2.1 bb.2.2.2 region.points offset sx sy

/-- `ConvertToGCode` from gcode.go: fixed preamble, outline emission, fill
emission, fixed postamble, concatenated in the order the Go string builder
receives them.  Coordinates are exact rationals; the unused `threshold`
parameter is kept exactly as in the source. -/
def ConvertToGCode (img : Img) (targetWidth targetHeight offset : ℚ) (threshold : Nat) : String :=
  let scaleX := scaleFor targetWidth img.width
  let scaleY := scaleFor targetHeight img.height
  let outlines := extractOutlinePaths img threshold
  let fillAreas := extractFillRegions img threshold
  "G21\nG90\nM5\nG0 F3000\nG1 F1500\n" ++
    (String.join (outlines.map (outlinePathStr offset scaleX scaleY)) ++
      (String.join (fillAreas.map (fillRegionStr offset scaleX scaleY)) ++ "M5\nG0 X0 Y0\n"))

/-! ### The pixel classifier (loader files `part_002` / `part_003`) -/

/-- `abs` from part_003. -/
def goAbs (x : Int) : Int := if x < 0 then -x else x

/-- The quantized color key `(r>>12)<<16 | (g>>12)<<8 | (b>>12)` built by
`processRasterImage` from the 16-bit premultiplied channels. -/
def colorKey (r g b : Nat) : Nat :=
  (r >>> 12) <<< 16 ||| (g >>> 12) <<< 8 ||| (b >>> 12)

/-- One `histogram[key]++` update.  Go's `map[uint32]int` is modeled as an
association list; `bumpAssoc` increments the key's entry or appends it. -/
def bumpAssoc : List (Nat × Nat) → Nat → List (Nat × Nat)
  | [], k => [(k, 1)]
  | (c, n) :: rest, k =>
    if c = k then (c, n + 1) :: rest else (c, n) :: bumpAssoc rest k

/-- `colors[i], colors[j] = colors[j], colors[i]` on a list. -/
def swapAt (l : List (Nat × Nat)) (i j : Nat) : List (Nat × Nat) :=
  let vi := l.getD i (0, 0)
  let vj := l.getD j (0, 0)
  (l.set i vj).set j vi

/-- `findDominantColors` from part_003 (part_002's closure-based copy is
the same algorithm): the histogram buckets, in whatever order Go's map
iteration yields them (the `histogram` list argument), are sorted in place
by the double loop `if colors[j].count > colors[i].count { swap }` and the
top `count` are returned.  Entries are `(quantized color, pixel count)`. -/
def findDominantColors (histogram : List (Nat × Nat)) (count : Nat) : List (Nat × Nat) :=
  let colors := histogram
  let n := colors.length
  let sorted := (List.range n).foldl
    (fun cs i =>
      (List.range' (i + 1) (n - (i + 1))).foldl
        (fun cs j => if (cs.getD j (0, 0)).2 > (cs.getD i (0, 0)).2 then swapAt cs i j else cs)
        cs)
    colors
  if sorted.length > count then sorted.take count else sorted

/-- `hasDistinctColorGroups` from part_002/part_003: the top two buckets
must jointly cover more than 70% of the counted pixels (the float ratio is
modeled over `ℚ`). -/
def hasDistinctColorGroups (dominantColors : List (Nat × Nat)) (totalPixels : Nat) : Bool :=
  if dominantColors.length < 2 then false
  else
    decide (((((dominantColors.getD 0 (0, 0)).2 : ℚ) + ((dominantColors.getD 1 (0, 0)).2 : ℚ)) /
      (totalPixels : ℚ)) > 7 / 10)

/-- `isColorSimilar` from part_003: per-channel distance below 3 on the
bytes of the two keys. -/
def isColorSimilar (c1 c2 : Nat) : Bool :=
  let r1 := c1 / 65536 % 256
  let g1 := c1 / 256 % 256
  let b1 := c1 % 256
  let r2 := c2 / 65536 % 256
  let g2 := c2 / 256 % 256
  let b2 := c2 % 256
  decide (goAbs ((r1 : Int) - r2) < 3 ∧ goAbs ((g1 : Int) - g2) < 3 ∧ goAbs ((b1 : Int) - b2) < 3)

/-- `isYellowDominant` from part_002: the share of warm buckets must exceed
one half.  For `totalPixels = 0` Go computes `NaN > 0.5 = false`; the `ℚ`
model computes `0 > 1/2 = false`, the same outcome. -/
def isYellowDominant (histogram : List (Nat × Nat)) (totalPixels : Nat) : Bool :=
  let yellowCount : Nat := histogram.foldl
    (fun acc e =>
      let r := e.1 / 65536 % 256
      let g := e.1 / 256 % 256
      let b := e.1 % 256
      if 10 < r ∧ 10 < g ∧ b * 2 < r ∧ b * 2 < g then acc + e.2 else acc)
    0
  decide ((yellowCount : ℚ) / (totalPixels : ℚ) > 1 / 2)

/-- The histogram pass of part_003's `processRasterImage` (lines 132-147):
skip pixels with `a < 0x8000`, alpha-unpremultiply the rest, bump the
quantized bucket and the total count. -/
def histStep (src : Img) (st : List (Nat × Nat) × Nat) (p : Point) : List (Nat × Nat) × Nat :=
  let px := src.pix p.x p.y
  if px.a < 0x8000 then st
  else
    let r := px.r * 0xffff / px.a
    let g := px.g * 0xffff / px.a
    let b := px.b * 0xffff / px.a
    (bumpAssoc st.1 (colorKey r g b), st.2 + 1)

/-- `processRasterImage` from part_003 as the resulting `image.Gray` mask,
read as a function of the cell: `image.NewGray` zero-initializes, so the
empty-histogram early `return dst` (line 150-152) yields the all-zero
mask; otherwise every in-bounds cell is set by the second loop
(lines 162-193). -/
def processRasterImage (src : Img) : Int → Int → Nat :=
  let st := (scanPts src.width src.height).foldl (histStep src) ([], 0)
  let dominantColors := findDominantColors st.1 3
  if dominantColors.length = 0 then fun _ _ => 0
  else
    let dominantColor := (dominantColors.getD 0 (0, 0)).1
    let secondaryColor := if dominantColors.length > 1 then (dominantColors.getD 1 (0, 0)).1 else 0
    let hasDistinctGroups := hasDistinctColorGroups dominantColors st.2
    fun x y =>
      if InB src x y then
        let px := src.pix x y
        if px.a = 0 then 255
        else
          let r := px.r * 0xffff / px.a
          let g := px.g * 0xffff / px.a
          let b := px.b * 0xffff / px.a
          let ck := colorKey r g b
          if hasDistinctGroups then
            if isColorSimilar ck dominantColor then 0
            else if secondaryColor ≠ 0 ∧ isColorSimilar ck secondaryColor then 127
            else 255
          else
            let gray := ((299 * r + 587 * g + 114 * b) / 1000) >>> 8 % 256
            if gray < 128 then 0 else 255
      else 0

/-- The statistics pass of part_002's `processRasterImage`
(lines 129-155): `(darkCount, lightCount, totalCount, histogram)`. -/
def v2Stats (src : Img) : Nat × Nat × Nat × List (Nat × Nat) :=
  (scanPts src.width src.height).foldl
    (fun st p =>
      let px := src.pix p.x p.y
      if px.a < 0x8000 then st
      else
        let r := px.r * 0xffff / px.a
        let g := px.g * 0xffff / px.a
        let b := px.b * 0xffff / px.a
        let gray := ((299 * r + 587 * g + 114 * b) / 1000) >>> 8 % 256
        ((if gray < 64 then st.1 + 1 else st.1),
          (if gray > 192 then st.2.1 + 1 else st.2.1),
          st.2.2.1 + 1,
          bumpAssoc st.2.2.2 (colorKey r g b)))
    (0, 0, 0, [])

/-- `processRasterImage` from part_002 as the resulting mask function:
fully transparent pixels (`a == 0`) map to 255; the inverse-engrave branch
uses the yellow/black tests, otherwise the soft luma threshold (the
`float64(gray-50)/180.0*255` conversion truncates, modeled with `⌊·⌋` over
`ℚ`). -/
def processRasterImage_v2 (src : Img) : Int → Int → Nat :=
  let st := v2Stats src
  let darkCount := st.1
  let totalCount := st.2.2.1
  let hist := st.2.2.2
  let dominantColors := findDominantColors hist 3
  let hasDistinct := hasDistinctColorGroups dominantColors totalCount
  let yellowIsBackground := isYellowDominant hist totalCount
  let blackIsFeature := decide (darkCount < totalCount / 5)
  let inverseEngrave := yellowIsBackground && blackIsFeature
  fun x y =>
    if InB src x y then
      let px := src.pix x y
      if px.a = 0 then 255
      else
        let r := px.r * 0xffff / px.a
        let g := px.g * 0xffff / px.a
        let b := px.b * 0xffff / px.a
        if hasDistinct && inverseEngrave then
          if 200 < r / 256 ∧ 180 < g / 256 ∧ b / 256 < 100 then 0
          else if r / 256 < 60 ∧ g / 256 < 60 ∧ b / 256 < 60 then 255
          else 255 - ((299 * r + 587 * g + 114 * b) / 1000) >>> 8 % 256
        else
          let gray := ((299 * r + 587 * g + 114 * b) / 1000) >>> 8 % 256
          if gray < 50 then 0
          else if gray > 230 then 255
          else (⌊((gray : ℚ) - 50) / 180 * 255⌋).toNat
    else 0

/-! ### Concrete inputs used by counterexamples and witnesses -/

/-- A 3×3 grid whose every pixel is opaque black. -/
def img3 : Img := ⟨3, 3, fun _ _ => ⟨0, 0, 0, 65535⟩⟩

/-- A 2×2 grid whose every pixel is fully transparent. -/
def transparent2 : Img := ⟨2, 2, fun _ _ => ⟨0, 0, 0, 0⟩⟩

/-- A degenerate grid with zero width. -/
def imgNull : Img := ⟨0, 5, fun _ _ => ⟨0, 0, 0, 65535⟩⟩

/-- A region of exactly 200 points on one row: `(0,0) … (199,0)`. -/
def r200 : Path := ⟨(List.range 200).map fun i => ⟨(i : Int), 0⟩⟩

/-- What `tracePath`'s neighbor selection guarantees about a returned
candidate: in bounds, unvisited, dark, and an edge pixel. -/
def GoodNbr (img : Img) (v : V) (nx ny : Int) : Prop :=
  InB img nx ny ∧ v nx ny = false ∧ getGrayscale img nx ny < 230 ∧
    isEdgePixel img nx ny = true

/-- Postcondition of a collecting walk (`tracePath`'s greedy loop or
`floodFill`'s BFS) started from collected points `pts` and visited grid
`v`, with result `st`: collected points are visited and pairwise distinct,
the visited grid only grows, every newly visited pixel was collected,
every collected point is kept, new collected points satisfy `P` and were
unvisited at the start. -/
def WalkOut (P : Point → Prop) (pts : List Point) (v : V) (st : List Point × V) : Prop :=
  (∀ q ∈ st.1, st.2 q.x q.y = true) ∧ st.1.Nodup ∧
    (∀ a b : Int, v a b = true → st.2 a b = true) ∧
    (∀ a b : Int, st.2 a b = true → v a b = true ∨ (⟨a, b⟩ : Point) ∈ st.1) ∧
    (∀ q ∈ pts, q ∈ st.1) ∧
    (∀ q ∈ st.1, q ∈ pts ∨ P q) ∧
    (∀ q ∈ st.1, q ∈ pts ∨ v q.x q.y = false)

/-- Invariant of a traversal pass over the scan state `(visited, paths)`:
all collected points are visited, pairwise distinct and satisfy `cprop`
(plus in-bounds and dark), and every visited dark in-bounds pixel
satisfying `sel` has been collected. -/
def PassInv (img : Img) (sel cprop : Point → Prop) (st : V × List Path) : Prop :=
  (∀ p ∈ allPts st.2, st.1 p.x p.y = true) ∧
    (allPts st.2).Nodup ∧
    (∀ p ∈ allPts st.2, InB img p.x p.y ∧ getGrayscale img p.x p.y < 230 ∧ cprop p) ∧
    (∀ p : Point, st.1 p.x p.y = true → InB img p.x p.y →
      getGrayscale img p.x p.y < 230 → sel p → p ∈ allPts st.2)

/-- The boundary pass's invariant: collected = dark in-bounds edge pixels. -/
def OutInv (img : Img) (st : V × List Path) : Prop :=
  PassInv img (fun p => isEdgePixel img p.x p.y = true)
    (fun p => isEdgePixel img p.x p.y = true) st

/-- The fill pass's invariant: collected points are dark and in bounds, and
every visited dark non-edge pixel has been collected. -/
def FillInv (img : Img) (st : V × List Path) : Prop :=
  PassInv img (fun p => isEdgePixel img p.x p.y = false) (fun _ => True) st

/-!
### Theorems

The claim theorems are accompanied by the helper lemmas the traversal
invariants need.
-/

/-- Setting a cell makes it visited. -/
theorem vset_self (v : V) (x y : Int) : vset v x y x y = true := by
  simp [vset]

/-- Setting a cell preserves every visited cell. -/
theorem vset_mono (v : V) (x y a b : Int) (h : v a b = true) : vset v x y a b = true := by
  unfold vset
  split <;> simp [h]

/-- A cell visited after a set was visited before or is the set cell. -/
theorem vset_eq_or (v : V) (x y a b : Int) (h : vset v x y a b = true) :
    v a b = true ∨ (a = x ∧ b = y) := by
  unfold vset at h
  split at h
  · right; assumption
  · left; exact h

/-- C1: `findDominantColors` has no tie-break: on the histogram
`{5 ↦ 1, 9 ↦ 1}` the two possible map-iteration orders produce the two
different bucket orders, so the ranking is not reproducible and, in
particular, ties are not broken by ascending quantized color value. -/
theorem C1_tie_order_follows_map_iteration :
    findDominantColors [(5, 1), (9, 1)] 3 = [(5, 1), (9, 1)] ∧
      findDominantColors [(9, 1), (5, 1)] 3 = [(9, 1), (5, 1)] ∧
      findDominantColors [(5, 1), (9, 1)] 3 ≠ findDominantColors [(9, 1), (5, 1)] 3 := by
  decide

set_option maxRecDepth 4000 in
/-- C4: on a fully transparent 2×2 image (empty color histogram),
part_003's `processRasterImage` takes the empty-histogram early return and
yields the zero-initialized `image.NewGray` mask — every cell is 0 (full
engrave), not the background value 255 the spec requires; part_002's
variant of the same function does return 255 everywhere. -/
theorem C4_transparent_image_mask :
    processRasterImage transparent2 0 0 = 0 ∧ processRasterImage transparent2 1 0 = 0 ∧
      processRasterImage transparent2 0 1 = 0 ∧ processRasterImage transparent2 1 1 = 0 ∧
      processRasterImage_v2 transparent2 0 0 = 255 ∧ processRasterImage_v2 transparent2 1 0 = 255 ∧
      processRasterImage_v2 transparent2 0 1 = 255 ∧ processRasterImage_v2 transparent2 1 1 = 255 := by
  decide

/-- C5: `ConvertToGCode` ignores its `threshold` parameter: for any two
threshold values and otherwise equal arguments the produced program text is
identical (every classification test uses the fixed constant 230). -/
theorem C5_threshold_independent (img : Img) (tw th off : ℚ) (t1 t2 : Nat) :
    ConvertToGCode img tw th off t1 = ConvertToGCode img tw th off t2 := by
  simp only [ConvertToGCode, extractOutlinePaths, extractFillRegions]

/-- C10: the emitter's coordinate transform maps pixel `(0,0)` to
`(offset, offset)` and pixel `(width, height)` to
`(offset+targetWidth, offset+targetHeight)`; over the exact rational model
the round-trip is exact. -/
theorem C10_transform_round_trip (tw th off : ℚ) (w h : Nat) (hw : w ≠ 0) (hh : h ≠ 0) :
    transformCoord off (scaleFor tw w) 0 = off ∧
      transformCoord off (scaleFor th h) 0 = off ∧
      transformCoord off (scaleFor tw w) ((w : Nat) : Int) = off + tw ∧
      transformCoord off (scaleFor th h) ((h : Nat) : Int) = off + th := by
  have hw' : (w : ℚ) ≠ 0 := Nat.cast_ne_zero.mpr hw
  have hh' : (h : ℚ) ≠ 0 := Nat.cast_ne_zero.mpr hh
  refine ⟨by simp [transformCoord], by simp [transformCoord], ?_, ?_⟩ <;>
    · unfold transformCoord scaleFor
      push_cast
      field_simp

/-- Closed instance of C10 at `targetWidth = 50`, `targetHeight = 60`,
`offset = 5`, a 10×20 pixel grid. -/
theorem C10_witness :
    transformCoord 5 (scaleFor 50 10) ((10 : Nat) : Int) = 5 + 50 ∧
      transformCoord 5 (scaleFor 60 20) ((20 : Nat) : Int) = 5 + 60 :=
  ⟨(C10_transform_round_trip 50 60 5 10 20 (by decide) (by decide)).2.2.1,
    (C10_transform_round_trip 50 60 5 10 20 (by decide) (by decide)).2.2.2⟩

/-- Specification of `simplifyLoop`: the kept list extends the
accumulator's head, grows by at most the number of consumed points (with
equality only when every point was kept), and its last element is the
returned `prev`. -/
theorem simplifyLoop_spec (tol : ℚ) :
    ∀ (rest : List Point) (prev : Point) (acc : List Point),
      acc ≠ [] → acc.getLast? = some prev →
      (simplifyLoop tol prev rest acc).1.head? = acc.head? ∧
        (simplifyLoop tol prev rest acc).1.length ≤ acc.length + rest.length ∧
        ((simplifyLoop tol prev rest acc).1.length = acc.length + rest.length →
          (simplifyLoop tol prev rest acc).1 = acc ++ rest) ∧
        (simplifyLoop tol prev rest acc).1.getLast? = some (simplifyLoop tol prev rest acc).2 ∧
        (simplifyLoop tol prev rest acc).1 ≠ [] := by
  intro rest
  induction rest with
  | nil =>
    intro prev acc hne hlast
    refine ⟨rfl, by simp [simplifyLoop], by simp [simplifyLoop], ?_, ?_⟩
    · simpa [simplifyLoop] using hlast
    · simpa [simplifyLoop] using hne
  | cons c rest ih =>
    intro prev acc hne hlast
    simp only [simplifyLoop]
    split
    · have hacc : (acc ++ [c]) ≠ [] := by simp
      have hlast' : (acc ++ [c]).getLast? = some c := List.getLast?_concat acc
      obtain ⟨h1, h2, h3, h4, h5⟩ := ih c (acc ++ [c]) hacc hlast'
      refine ⟨?_, ?_, ?_, h4, h5⟩
      · rw [h1, List.head?_append]
        cases acc with
        | nil => exact absurd rfl hne
        | cons a as => rfl
      · simp only [List.length_append, List.length_cons, List.length_singleton, List.length_nil] at h2 ⊢
        omega
      · intro hlen
        have hlen' : (simplifyLoop tol c rest (acc ++ [c])).1.length =
            (acc ++ [c]).length + rest.length := by
          simp only [List.length_append, List.length_cons, List.length_singleton, List.length_nil] at hlen ⊢
          omega
        have := h3 hlen'
        simpa [List.append_assoc] using this
    · obtain ⟨h1, h2, h3, h4, h5⟩ := ih prev acc hne hlast
      refine ⟨h1, ?_, ?_, h4, h5⟩
      · simp only [List.length_cons]
        omega
      · intro hlen
        simp only [List.length_cons] at hlen
        omega

/-- C2 counterexample: on the 3-point path `(0,0), (1,1), (1,0)` with the
tolerance `1.0` used by `ConvertToGCode`, `simplifyPath` keeps only the
first point — the final point `(1,0)` is lost, contradicting the claimed
last-point preservation (the force-append is guarded by
`len(result) > 1`). -/
theorem C2_counterexample :
    simplifyPath [⟨0, 0⟩, ⟨1, 1⟩, ⟨1, 0⟩] 1 = [⟨0, 0⟩] ∧
      ([(⟨0, 0⟩ : Point), ⟨1, 1⟩, ⟨1, 0⟩].getLast?) = some ⟨1, 0⟩ ∧
      (simplifyPath [⟨0, 0⟩, ⟨1, 1⟩, ⟨1, 0⟩] 1).getLast? ≠ some (⟨1, 0⟩ : Point) := by
  decide

/-- Specification of `simplifyTail`: first point kept, length bounded by
the input length, and the final point preserved whenever more than one
point survives. -/
theorem simplifyTail_spec (tol : ℚ) (p0 : Point) (rest : List Point) :
    (simplifyTail tol p0 rest).head? = some p0 ∧
      (simplifyTail tol p0 rest).length ≤ rest.length + 1 ∧
      (1 < (simplifyTail tol p0 rest).length →
        (simplifyTail tol p0 rest).getLast? = (p0 :: rest).getLast?) := by
  obtain ⟨h1, h2, h3, h4, h5⟩ := simplifyLoop_spec tol rest p0 [p0] (by simp) (by simp)
  simp only [List.head?_cons] at h1
  simp only [List.length_singleton] at h2 h3
  have hlast_pts : (p0 :: rest).getLast? =
      some ((p0 :: rest).getLast (List.cons_ne_nil p0 rest)) :=
    List.getLast?_eq_getLast _ _
  simp only [simplifyTail]
  split
  · rename_i hcond
    have hne1 : (simplifyLoop tol p0 rest [p0]).1.length ≠ 1 + rest.length := by
      intro heq
      have hres : (simplifyLoop tol p0 rest [p0]).1 = p0 :: rest := by
        simpa using h3 (by omega)
      apply hcond.2
      rw [List.getLastD_eq_getLast?, hres, hlast_pts]
      rfl
    refine ⟨?_, ?_, ?_⟩
    · rw [List.head?_append, h1]
      rfl
    · simp only [List.length_append, List.length_singleton]
      omega
    · intro _
      rw [List.getLast?_concat, hlast_pts]
  · rename_i hcond
    refine ⟨h1, by omega, ?_⟩
    intro h1lt
    have hle : (simplifyLoop tol p0 rest [p0]).1.getLastD p0 =
        (p0 :: rest).getLast (List.cons_ne_nil p0 rest) := by
      by_contra hneq
      exact hcond ⟨h1lt, hneq⟩
    rw [List.getLastD_eq_getLast?, h4] at hle
    rw [h4, hlast_pts]
    simpa using hle

/-- C2 amended: for every nonempty path and every tolerance,
`simplifyPath` preserves the first point and never lengthens the path; the
last point is preserved whenever the input is shorter than 3 points or the
simplified result keeps more than one point (when everything collapses
onto the first kept point the final point is dropped, as the
counterexample shows). -/
theorem C2_simplify_endpoints (points : List Point) (tol : ℚ) (hne : points ≠ []) :
    (simplifyPath points tol).head? = points.head? ∧
      (simplifyPath points tol).length ≤ points.length ∧
      ((points.length < 3 ∨ 1 < (simplifyPath points tol).length) →
        (simplifyPath points tol).getLast? = points.getLast?) := by
  by_cases hshort : points.length < 3
  · rw [simplifyPath.eq_def, if_pos hshort]
    exact ⟨rfl, le_refl _, fun _ => rfl⟩
  · cases points with
    | nil => exact absurd rfl hne
    | cons p0 rest =>
      have hrw : simplifyPath (p0 :: rest) tol = simplifyTail tol p0 rest := by
        rw [simplifyPath.eq_def, if_neg hshort]
      rw [hrw]
      obtain ⟨h1, h2, h3⟩ := simplifyTail_spec tol p0 rest
      refine ⟨by rw [h1]; rfl, by simpa using h2, ?_⟩
      intro hor
      rcases hor with hor | hor
      · exact absurd hor hshort
      · exact h3 hor

/-- Closed instance of C2 amended: on `(0,0), (5,5), (9,0)` at tolerance 1
every point is kept, so the final point is preserved. -/
theorem C2_witness :
    (simplifyPath [⟨0, 0⟩, ⟨5, 5⟩, ⟨9, 0⟩] 1).getLast? =
      some (⟨9, 0⟩ : Point) := by
  have h := (C2_simplify_endpoints [⟨0, 0⟩, ⟨5, 5⟩, ⟨9, 0⟩] 1 (by decide)).2.2
    (Or.inr (by decide))
  simpa using h

/-- Folding string concatenation from `a` is `a ++` the fold from `""`. -/
theorem string_foldl_append (l : List String) :
    ∀ a : String, l.foldl (· ++ ·) a = a ++ l.foldl (· ++ ·) "" := by
  induction l with
  | nil => intro a; simp [String.append_empty]
  | cons s l ih =>
    intro a
    simp only [List.foldl_cons]
    rw [ih (a ++ s), ih ("" ++ s), String.empty_append, String.append_assoc]

/-- `String.join` unfolds over `::`. -/
theorem string_join_cons (s : String) (l : List String) :
    String.join (s :: l) = s ++ String.join l := by
  show (s :: l).foldl (· ++ ·) "" = _
  rw [List.foldl_cons, string_foldl_append l ("" ++ s), String.empty_append]
  rfl

/-- A degenerate grid has an empty scan order. -/
theorem scanPts_eq_nil {w h : Nat} (hwh : w = 0 ∨ h = 0) : scanPts w h = [] := by
  rcases hwh with h0 | h0 <;> subst h0 <;> simp [scanPts]

/-- On a degenerate grid the boundary pass finds no paths. -/
theorem extractOutlinePaths_degenerate (img : Img) (t : Nat)
    (hdeg : img.width = 0 ∨ img.height = 0) : extractOutlinePaths img t = [] := by
  unfold extractOutlinePaths
  rw [scanPts_eq_nil hdeg]
  rfl

/-- On a degenerate grid the fill pass finds no regions. -/
theorem extractFillRegions_degenerate (img : Img) (t : Nat)
    (hdeg : img.width = 0 ∨ img.height = 0) : extractFillRegions img t = [] := by
  unfold extractFillRegions
  rw [scanPts_eq_nil hdeg]
  rfl

/-- C9: every program `ConvertToGCode` returns starts with the preamble
`G21`, `G90`, `M5` and ends with `M5` followed by `G0 X0 Y0`; on a
degenerate grid (zero width or height) the program is exactly the fixed
preamble followed by the fixed postamble. -/
theorem C9_preamble_postamble (img : Img) (tw th off : ℚ) (t : Nat) :
    (∃ mid : String, ConvertToGCode img tw th off t =
        "G21\nG90\nM5\n" ++ mid ++ "M5\nG0 X0 Y0\n") ∧
      (img.width = 0 ∨ img.height = 0 →
        ConvertToGCode img tw th off t =
          "G21\nG90\nM5\nG0 F3000\nG1 F1500\nM5\nG0 X0 Y0\n") := by
  constructor
  · refine ⟨"G0 F3000\nG1 F1500\n" ++
      (String.join ((extractOutlinePaths img t).map
        (outlinePathStr off (scaleFor tw img.width) (scaleFor th img.height))) ++
        String.join ((extractFillRegions img t).map
          (fillRegionStr off (scaleFor tw img.width) (scaleFor th img.height)))), ?_⟩
    simp only [ConvertToGCode]
    rw [show ("G21\nG90\nM5\nG0 F3000\nG1 F1500\n" : String) =
      "G21\nG90\nM5\n" ++ "G0 F3000\nG1 F1500\n" from rfl]
    simp only [String.append_assoc]
  · intro hdeg
    simp only [ConvertToGCode]
    rw [extractOutlinePaths_degenerate img t hdeg, extractFillRegions_degenerate img t hdeg]
    rfl

/-- Closed instance of C9 on the degenerate zero-width grid: the program
is exactly preamble plus postamble. -/
theorem C9_witness :
    ConvertToGCode imgNull 50 50 0 128 =
      "G21\nG90\nM5\nG0 F3000\nG1 F1500\nM5\nG0 X0 Y0\n" :=
  (C9_preamble_postamble imgNull 50 50 0 128).2 (Or.inl rfl)

set_option maxRecDepth 40000 in
/-- C8 counterexample: the fill loop of `ConvertToGCode` does not discard
a region of exactly 200 points — at the claimed threshold the region is
kept (the guard is `len(region.points) < 200`) and, for this concrete
one-row region, emits a fill segment, contradicting "a region at or below
the threshold is discarded and contributes no output". -/
theorem C8_counterexample :
    r200.points.length = 200 ∧
      String.join ([r200].map (fillRegionStr 0 1 1)) ≠ "" := by
  constructor
  · decide
  · decide

/-- C8 amended: the fill loop contributes the zig-zag emission of exactly
those regions with at least 200 points; a region with fewer than 200
points contributes the empty string. -/
theorem C8_fill_filter (img : Img) (t : Nat) (off sx sy : ℚ) :
    String.join ((extractFillRegions img t).map (fillRegionStr off sx sy)) =
      String.join (((extractFillRegions img t).filter
        fun r => 200 ≤ r.points.length).map (fillRegionStr off sx sy)) ∧
      ∀ r : Path, r.points.length < 200 → fillRegionStr off sx sy r = "" := by
  have hsmall : ∀ r : Path, r.points.length < 200 → fillRegionStr off sx sy r = "" := by
    intro r hr
    unfold fillRegionStr
    rw [if_pos hr]
  refine ⟨?_, hsmall⟩
  induction extractFillRegions img t with
  | nil => rfl
  | cons r l ih =>
    by_cases hr : 200 ≤ r.points.length
    · rw [List.filter_cons_of_pos (by simpa using hr)]
      simp only [List.map_cons, string_join_cons, ih]
    · rw [List.filter_cons_of_neg (by simpa using hr)]
      simp only [List.map_cons, string_join_cons, ih,
        hsmall r (by omega), String.empty_append]

/-- Closed instance of C8 amended: the empty region contributes nothing. -/
theorem C8_witness : fillRegionStr 0 1 1 ⟨[]⟩ = "" :=
  (C8_fill_filter imgNull 128 0 1 1).2 ⟨[]⟩ (by decide)

/-- Invariant of the left-to-right scanline loop: accumulated segments are
ordered, and an open `startSegment` lies at or left of both the cursor and
`maxX`, so every flush is ordered. -/
theorem ltrScan_spec (mem : Int → Bool) (maxX : Int) :
    ∀ (fuel : Nat) (x ss : Int) (acc : List (Int × Int)),
      (∀ s ∈ acc, s.1 ≤ s.2) → (ss ≠ -1 → ss ≤ x - 1 ∧ ss ≤ maxX) →
      (∀ s ∈ (ltrScan mem maxX fuel x ss acc).1, s.1 ≤ s.2) ∧
        ((ltrScan mem maxX fuel x ss acc).2 ≠ -1 → (ltrScan mem maxX fuel x ss acc).2 ≤ maxX) := by
  intro fuel
  induction fuel with
  | zero => exact fun x ss acc hacc hss => ⟨hacc, fun h => (hss h).2⟩
  | succ fuel ih =>
    intro x ss acc hacc hss
    simp only [ltrScan]
    split
    · exact ⟨hacc, fun h => (hss h).2⟩
    · rename_i hxle
      split
      · apply ih
        · exact hacc
        · intro hne
          by_cases hs1 : ss = -1
          · rw [if_pos hs1] at hne ⊢
            omega
          · rw [if_neg hs1] at hne ⊢
            have := hss hs1
            omega
      · split
        · rename_i hssne
          apply ih
          · intro s hs
            rcases List.mem_append.mp hs with h | h
            · exact hacc s h
            · have hse : s = (ss, x - 1) := by simpa using h
              have := hss hssne
              subst hse
              simp only
              omega
          · intro h
            exact absurd rfl h
        · apply ih _ _ _ hacc
          intro hne
          have := hss hne
          omega

/-- Invariant of the right-to-left scanline loop: accumulated segments are
ordered, and an open `startSegment` lies at or right of both the cursor
and `minX`, so every flush is ordered. -/
theorem rtlScan_spec (mem : Int → Bool) (minX : Int) :
    ∀ (fuel : Nat) (x ss : Int) (acc : List (Int × Int)),
      (∀ s ∈ acc, s.1 ≤ s.2) → (ss ≠ -1 → x + 1 ≤ ss ∧ minX ≤ ss) →
      (∀ s ∈ (rtlScan mem minX fuel x ss acc).1, s.1 ≤ s.2) ∧
        ((rtlScan mem minX fuel x ss acc).2 ≠ -1 → minX ≤ (rtlScan mem minX fuel x ss acc).2) := by
  intro fuel
  induction fuel with
  | zero => exact fun x ss acc hacc hss => ⟨hacc, fun h => (hss h).2⟩
  | succ fuel ih =>
    intro x ss acc hacc hss
    simp only [rtlScan]
    split
    · exact ⟨hacc, fun h => (hss h).2⟩
    · rename_i hxge
      split
      · apply ih
        · exact hacc
        · intro hne
          by_cases hs1 : ss = -1
          · rw [if_pos hs1] at hne ⊢
            omega
          · rw [if_neg hs1] at hne ⊢
            have := hss hs1
            omega
      · split
        · rename_i hssne
          apply ih
          · intro s hs
            rcases List.mem_append.mp hs with h | h
            · exact hacc s h
            · have hse : s = (x + 1, ss) := by simpa using h
              have := hss hssne
              subst hse
              simp only
              omega
          · intro h
            exact absurd rfl h
        · apply ih _ _ _ hacc
          intro hne
          have := hss hne
          omega

/-- Every segment a single scanline accumulates (in either direction)
satisfies `startX ≤ endX`. -/
theorem rowSegments_spec (mem : Int → Bool) (minX maxX : Int) (fromRight : Bool) :
    ∀ s ∈ rowSegments mem minX maxX fromRight, s.1 ≤ s.2 := by
  intro s hs
  unfold rowSegments at hs
  rcases fromRight with _ | _
  · simp only [Bool.false_eq_true, if_false] at hs
    obtain ⟨h1, h2⟩ := ltrScan_spec mem maxX ((maxX - minX + 1).toNat) minX (-1) []
      (by simp) (fun h => absurd rfl h)
    by_cases hne : (ltrScan mem maxX ((maxX - minX + 1).toNat) minX (-1) []).2 ≠ -1
    · rw [if_pos hne] at hs
      rcases List.mem_append.mp hs with h | h
      · exact h1 s h
      · have hse : s = ((ltrScan mem maxX ((maxX - minX + 1).toNat) minX (-1) []).2, maxX) := by
          simpa using h
        subst hse
        exact h2 hne
    · rw [if_neg hne] at hs
      exact h1 s hs
  · simp only [if_true] at hs
    obtain ⟨h1, h2⟩ := rtlScan_spec mem minX ((maxX - minX + 1).toNat) maxX (-1) []
      (by simp) (fun h => absurd rfl h)
    by_cases hne : (rtlScan mem minX ((maxX - minX + 1).toNat) maxX (-1) []).2 ≠ -1
    · rw [if_pos hne] at hs
      rcases List.mem_append.mp hs with h | h
      · exact h1 s h
      · have hse : s = (minX, (rtlScan mem minX ((maxX - minX + 1).toNat) maxX (-1) []).2) := by
          simpa using h
        subst hse
        exact h2 hne
    · rw [if_neg hne] at hs
      exact h1 s hs

/-- Every row the scanline loop emits carries only ordered segments. -/
theorem zigzagRows_spec (memxy : Int → Int → Bool) (minX maxX minY maxY : Int) :
    ∀ (fuel : Nat) (y : Int) (row : Int × List (Int × Int)),
      row ∈ zigzagRows memxy minX maxX minY maxY fuel y →
      ∀ s ∈ row.2, s.1 ≤ s.2 := by
  intro fuel
  induction fuel with
  | zero => intro y row hrow; simp [zigzagRows] at hrow
  | succ fuel ih =>
    intro y row hrow
    simp only [zigzagRows] at hrow
    split at hrow
    · simp at hrow
    · rcases List.mem_cons.mp hrow with h | h
      · subst h
        exact rowSegments_spec _ minX maxX _
      · exact ih (y + 3) row h

/-- C7: every segment accumulated by `fillOptimizedZigZag`, in both the
left-to-right and the right-to-left scan branch, satisfies
`startX ≤ endX`, for every region point list and bounding box. -/
theorem C7_segment_order (minX minY maxX maxY : Int) (points : List Point) :
    ∀ s ∈ zigzagSegments minX minY maxX maxY points, s.2.1 ≤ s.2.2 := by
  intro s hs
  unfold zigzagSegments at hs
  rcases List.mem_flatMap.mp hs with ⟨row, hrow, hseg⟩
  rcases List.mem_map.mp hseg with ⟨seg, hsegmem, hsegeq⟩
  have := zigzagRows_spec (memberFn points) minX maxX minY maxY _ minY row hrow seg hsegmem
  subst hsegeq
  exact this

/-- Closed instance of C7: the one-row region `(0,0) … (4,0)` produces the
single ordered segment `(0, 4)` on row 0. -/
theorem C7_witness : ((0 : Int), (0 : Int), (4 : Int)).2.1 ≤ ((0 : Int), (0 : Int), (4 : Int)).2.2 :=
  C7_segment_order 0 0 4 0 [⟨0, 0⟩, ⟨1, 0⟩, ⟨2, 0⟩, ⟨3, 0⟩, ⟨4, 0⟩] (0, 0, 4) (by decide)

/-- A walk that does nothing satisfies its postcondition. -/
theorem WalkOut_refl (P : Point → Prop) (pts : List Point) (v : V)
    (h1 : ∀ q ∈ pts, v q.x q.y = true) (h2 : pts.Nodup) :
    WalkOut P pts v (pts, v) :=
  ⟨h1, h2, fun _ _ h => h, fun _ _ h => Or.inl h, fun _ hq => hq,
    fun _ hq => Or.inl hq, fun _ hq => Or.inl hq⟩

/-- Collecting one unvisited point satisfying `P` and marking it is a
valid walk step. -/
theorem WalkOut_snoc (P : Point → Prop) (pts : List Point) (v : V) (q0 : Point)
    (h1 : ∀ q ∈ pts, v q.x q.y = true) (h2 : pts.Nodup)
    (hq0 : v q0.x q0.y = false) (hP : P q0) :
    WalkOut P pts v (pts ++ [q0], vset v q0.x q0.y) := by
  have hnotin : q0 ∉ pts := fun hmem => by simp [h1 q0 hmem] at hq0
  refine ⟨?_, ?_, ?_, ?_, ?_, ?_, ?_⟩
  · intro q hq
    rcases List.mem_append.mp hq with h | h
    · exact vset_mono _ _ _ _ _ (h1 q h)
    · have : q = q0 := by simpa using h
      subst this
      exact vset_self _ _ _
  · simp [List.nodup_append, h2, hnotin]
  · intro a b h
    exact vset_mono _ _ _ _ _ h
  · intro a b h
    rcases vset_eq_or _ _ _ _ _ h with h' | h'
    · exact Or.inl h'
    · right
      have : (⟨a, b⟩ : Point) = q0 := by
        cases q0
        simp only at h'
        rw [h'.1, h'.2]
      rw [this]
      simp
  · intro q hq
    exact List.mem_append_left _ hq
  · intro q hq
    rcases List.mem_append.mp hq with h | h
    · exact Or.inl h
    · have : q = q0 := by simpa using h
      subst this
      exact Or.inr hP
  · intro q hq
    rcases List.mem_append.mp hq with h | h
    · exact Or.inl h
    · have : q = q0 := by simpa using h
      subst this
      exact Or.inr hq0

/-- Walk postconditions compose. -/
theorem WalkOut_trans (P : Point → Prop) (pts : List Point) (v : V)
    (mid st : List Point × V)
    (hA : WalkOut P pts v mid) (hB : WalkOut P mid.1 mid.2 st) :
    WalkOut P pts v st := by
  obtain ⟨a1, a2, a3, a4, a5, a6, a7⟩ := hA
  obtain ⟨b1, b2, b3, b4, b5, b6, b7⟩ := hB
  refine ⟨b1, b2, fun a b h => b3 a b (a3 a b h), ?_, fun q hq => b5 q (a5 q hq), ?_, ?_⟩
  · intro a b h
    rcases b4 a b h with h' | h'
    · rcases a4 a b h' with h'' | h''
      · exact Or.inl h''
      · exact Or.inr (b5 _ h'')
    · exact Or.inr h'
  · intro q hq
    rcases b6 q hq with h' | h'
    · rcases a6 q h' with h'' | h''
      · exact Or.inl h''
      · exact Or.inr h''
    · exact Or.inr h'
  · intro q hq
    rcases b7 q hq with h' | h'
    · exact a7 q h'
    · right
      cases hvq : v q.x q.y
      · rfl
      · rw [a3 q.x q.y hvq] at h'
        cases h'

/-- Whatever candidate `tracePath`'s neighbor-selection loop returns is in
bounds, unvisited, dark and an edge pixel. -/
theorem pickNextAux_good (img : Img) (v : V) (x y : Int) :
    ∀ (dirs : List (Int × Int)) (best : Option (Nat × Int × Int)),
      (∀ d nx ny, best = some (d, nx, ny) → GoodNbr img v nx ny) →
      ∀ d nx ny, pickNextAux img v x y dirs best = some (d, nx, ny) → GoodNbr img v nx ny := by
  intro dirs
  induction dirs with
  | nil => exact fun best hbest => hbest
  | cons dir dirs ih =>
    intro best hbest d nx ny h
    simp only [pickNextAux] at h
    split at h
    · exact ih best hbest d nx ny h
    · split at h
      · exact ih best hbest d nx ny h
      · split at h
        · rename_i hoob hnv hcand
          have hgood : GoodNbr img v (x + dir.1) (y + dir.2) := by
            refine ⟨?_, ?_, hcand.1, hcand.2⟩
            · unfold InB
              push_neg at hoob
              exact ⟨hoob.1, hoob.2.2.1, hoob.2.1, hoob.2.2.2⟩
            · cases hb : v (x + dir.1) (y + dir.2)
              · rfl
              · exact absurd hb hnv
          split at h
          · exact ih _ (fun d' nx' ny' he => by
              injection he with he'
              injection he' with he1 he2
              injection he2 with he3 he4
              rw [← he3, ← he4]
              exact hgood) d nx ny h
          · rename_i bd bx bYY
            split at h
            · exact ih _ (fun d' nx' ny' he => by
                injection he with he'
                injection he' with he1 he2
                injection he2 with he3 he4
                rw [← he3, ← he4]
                exact hgood) d nx ny h
            · exact ih _ hbest d nx ny h
        · exact ih best hbest d nx ny h

/-- The greedy walk of `tracePath` satisfies the walk postcondition with
`P` = "in bounds, dark, edge pixel", for any fuel. -/
theorem tracePathAux_walk (img : Img) :
    ∀ (fuel : Nat) (x y : Int) (pts : List Point) (v : V),
      (∀ q ∈ pts, v q.x q.y = true) → pts.Nodup →
      WalkOut (fun q => InB img q.x q.y ∧ getGrayscale img q.x q.y < 230 ∧
          isEdgePixel img q.x q.y = true)
        pts v (tracePathAux img fuel x y pts v) := by
  intro fuel
  induction fuel with
  | zero =>
    intro x y pts v hv hnd
    exact WalkOut_refl _ _ _ hv hnd
  | succ fuel ih =>
    intro x y pts v hv hnd
    simp only [tracePathAux]
    cases hpick : pickNextAux img v x y directions8 none with
    | none => exact WalkOut_refl _ _ _ hv hnd
    | some cand =>
      obtain ⟨d, nx, ny⟩ := cand
      have hgood : GoodNbr img v nx ny :=
        pickNextAux_good img v x y directions8 none
          (fun d' nx' ny' he => Option.noConfusion he) d nx ny hpick
      have hstep := WalkOut_snoc
        (fun q => InB img q.x q.y ∧ getGrayscale img q.x q.y < 230 ∧
          isEdgePixel img q.x q.y = true)
        pts v ⟨nx, ny⟩ hv hnd hgood.2.1 ⟨hgood.1, hgood.2.2.1, hgood.2.2.2⟩
      exact WalkOut_trans _ _ _ _ _ hstep
        (ih nx ny (pts ++ [⟨nx, ny⟩]) (vset v nx ny) hstep.1 hstep.2.1)

/-- The neighbor loop of `floodFill` satisfies the walk postcondition with
`P` = "in bounds, dark" (no edge test). -/
theorem fillNbrs_walk (img : Img) (cx cy : Int) :
    ∀ (dirs : List (Int × Int)) (pts queue : List Point) (v : V),
      (∀ q ∈ pts, v q.x q.y = true) → pts.Nodup →
      WalkOut (fun q => InB img q.x q.y ∧ getGrayscale img q.x q.y < 230) pts v
        ((fillNbrs img cx cy dirs (pts, queue, v)).1,
          (fillNbrs img cx cy dirs (pts, queue, v)).2.2) := by
  intro dirs
  induction dirs with
  | nil =>
    intro pts queue v hv hnd
    exact WalkOut_refl _ _ _ hv hnd
  | cons dir dirs ih =>
    intro pts queue v hv hnd
    simp only [fillNbrs]
    split
    · exact ih pts queue v hv hnd
    · split
      · exact ih pts queue v hv hnd
      · split
        · rename_i hoob hnv hdark
          have hgood : InB img (cx + dir.1) (cy + dir.2) ∧
              getGrayscale img (cx + dir.1) (cy + dir.2) < 230 := by
            refine ⟨?_, hdark⟩
            unfold InB
            push_neg at hoob
            exact ⟨hoob.1, hoob.2.2.1, hoob.2.1, hoob.2.2.2⟩
          have hq0 : v (cx + dir.1) (cy + dir.2) = false := by
            cases hb : v (cx + dir.1) (cy + dir.2)
            · rfl
            · exact absurd hb hnv
          have hstep := WalkOut_snoc
            (fun q => InB img q.x q.y ∧ getGrayscale img q.x q.y < 230)
            pts v ⟨cx + dir.1, cy + dir.2⟩ hv hnd hq0 hgood
          exact WalkOut_trans _ _ _ _ _ hstep
            (ih (pts ++ [⟨cx + dir.1, cy + dir.2⟩]) (queue ++ [⟨cx + dir.1, cy + dir.2⟩])
              (vset v (cx + dir.1) (cy + dir.2)) hstep.1 hstep.2.1)
        · exact ih pts queue v hv hnd

/-- The BFS loop of `floodFill` satisfies the walk postcondition with
`P` = "in bounds, dark", for any fuel. -/
theorem floodFillAux_walk (img : Img) :
    ∀ (fuel : Nat) (queue pts : List Point) (v : V),
      (∀ q ∈ pts, v q.x q.y = true) → pts.Nodup →
      WalkOut (fun q => InB img q.x q.y ∧ getGrayscale img q.x q.y < 230) pts v
        (floodFillAux img fuel queue pts v) := by
  intro fuel
  induction fuel with
  | zero =>
    intro queue pts v hv hnd
    exact WalkOut_refl _ _ _ hv hnd
  | succ fuel ih =>
    intro queue pts v hv hnd
    cases queue with
    | nil => exact WalkOut_refl _ _ _ hv hnd
    | cons curr rest =>
      simp only [floodFillAux]
      have hmid := fillNbrs_walk img curr.x curr.y directions4 pts rest v hv hnd
      exact WalkOut_trans _ _ _ _ _ hmid
        (ih (fillNbrs img curr.x curr.y directions4 (pts, rest, v)).2.1
          (fillNbrs img curr.x curr.y directions4 (pts, rest, v)).1
          (fillNbrs img curr.x curr.y directions4 (pts, rest, v)).2.2
          hmid.1 hmid.2.1)

/-- A cell unvisited after a set was unvisited before. -/
theorem vset_false (v : V) (x y a b : Int) (h : vset v x y a b = false) :
    v a b = false := by
  cases hb : v a b
  · rfl
  · rw [vset_mono v x y a b hb] at h
    cases h

/-- Collected points of an appended path. -/
theorem allPts_append_single (l : List Path) (pa : Path) :
    allPts (l ++ [pa]) = allPts l ++ pa.points := by
  simp [allPts]

/-- Membership in the row-major scan order is exactly in-boundedness. -/
theorem mem_scanPts {w h : Nat} {px py : Int} :
    (⟨px, py⟩ : Point) ∈ scanPts w h ↔
      (0 ≤ px ∧ px < (w : Int) ∧ 0 ≤ py ∧ py < (h : Int)) := by
  unfold scanPts
  rw [List.mem_flatMap]
  constructor
  · rintro ⟨y, hy, hmem⟩
    obtain ⟨x, hx, heq⟩ := List.exists_of_mem_map hmem
    rw [List.mem_range] at hy hx
    have h1 : (x : Int) = px := by simpa using congrArg Point.x heq
    have h2 : (y : Int) = py := by simpa using congrArg Point.y heq
    omega
  · intro hB
    have h1 : ((px.toNat : Nat) : Int) = px := by omega
    have h2 : ((py.toNat : Nat) : Int) = py := by omega
    refine ⟨py.toNat, ?_, ?_⟩
    · rw [List.mem_range]
      omega
    · rw [show (⟨px, py⟩ : Point) = ⟨(px.toNat : Nat), (py.toNat : Nat)⟩ from by rw [h1, h2]]
      exact List.mem_map_of_mem _ (List.mem_range.mpr (by omega))

/-- `outStep` only grows the visited grid. -/
theorem outStep_mono (img : Img) (st : V × List Path) (p : Point) (a b : Int)
    (h : st.1 a b = true) : (outStep img st p).1 a b = true := by
  simp only [outStep, tracePath]
  split
  · exact h
  · split
    · exact vset_mono _ _ _ _ _ h
    · split
      · have hw := tracePathAux_walk img (img.width * img.height) p.x p.y
          [⟨p.x, p.y⟩] (vset st.1 p.x p.y)
          (by intro q hq; simp at hq; subst hq; exact vset_self _ _ _)
          (List.nodup_singleton _)
        exact vset_mono _ _ _ _ _ (hw.2.2.1 a b (vset_mono _ _ _ _ _ h))
      · exact vset_mono _ _ _ _ _ h

/-- `fillStep` only grows the visited grid. -/
theorem fillStep_mono (img : Img) (st : V × List Path) (p : Point) (a b : Int)
    (h : st.1 a b = true) : (fillStep img st p).1 a b = true := by
  simp only [fillStep, floodFill]
  split
  · exact h
  · split
    · exact vset_mono _ _ _ _ _ h
    · split
      · have hw := floodFillAux_walk img (img.width * img.height + 1)
          [⟨p.x, p.y⟩] [⟨p.x, p.y⟩] (vset st.1 p.x p.y)
          (by intro q hq; simp at hq; subst hq; exact vset_self _ _ _)
          (List.nodup_singleton _)
        exact vset_mono _ _ _ _ _ (hw.2.2.1 a b (vset_mono _ _ _ _ _ h))
      · exact vset_mono _ _ _ _ _ h

/-- One boundary-pass scan step preserves the pass invariant and marks the
scanned pixel. -/
theorem outStep_inv (img : Img) (st : V × List Path) (p : Point)
    (hin : InB img p.x p.y) (h : OutInv img st) :
    OutInv img (outStep img st p) ∧ (outStep img st p).1 p.x p.y = true := by
  obtain ⟨i1, i2, i3, i4⟩ := h
  simp only [outStep, tracePath]
  split
  · rename_i hv
    exact ⟨⟨i1, i2, i3, i4⟩, hv⟩
  · rename_i hnv
    have hpf : st.1 p.x p.y = false := by
      cases hb : st.1 p.x p.y
      · rfl
      · exact absurd hb hnv
    split
    · rename_i hbright
      refine ⟨⟨fun q hq => vset_mono _ _ _ _ _ (i1 q hq), i2, i3, ?_⟩, vset_self _ _ _⟩
      intro q hq hqin hqdark hqsel
      rcases vset_eq_or _ _ _ _ _ hq with h' | h'
      · exact i4 q h' hqin hqdark hqsel
      · exfalso
        rw [h'.1, h'.2] at hqdark
        omega
    · rename_i hdark
      split
      · rename_i hedge
        have hw := tracePathAux_walk img (img.width * img.height) p.x p.y
          [⟨p.x, p.y⟩] (vset st.1 p.x p.y)
          (by intro q hq; simp at hq; subst hq; exact vset_self _ _ _)
          (List.nodup_singleton _)
        obtain ⟨w1, w2, w3, w4, w5, w6, w7⟩ := hw
        have hseedmem : (⟨p.x, p.y⟩ : Point) ∈
            (tracePathAux img (img.width * img.height) p.x p.y
              [⟨p.x, p.y⟩] (vset st.1 p.x p.y)).1 :=
          w5 _ (by simp)
        have hnewold : ∀ q ∈ (tracePathAux img (img.width * img.height) p.x p.y
            [⟨p.x, p.y⟩] (vset st.1 p.x p.y)).1, q ∉ allPts st.2 := by
          intro q hq hqold
          have hqv : st.1 q.x q.y = true := i1 q hqold
          rcases w7 q hq with h' | h'
          · have : q = (⟨p.x, p.y⟩ : Point) := by simpa using h'
            rw [this] at hqv
            rw [hqv] at hpf
            cases hpf
          · rw [vset_false _ _ _ _ _ h'] at hqv
            cases hqv
        have hprops : ∀ q ∈ (tracePathAux img (img.width * img.height) p.x p.y
            [⟨p.x, p.y⟩] (vset st.1 p.x p.y)).1,
            InB img q.x q.y ∧ getGrayscale img q.x q.y < 230 ∧
              isEdgePixel img q.x q.y = true := by
          intro q hq
          rcases w6 q hq with h' | h'
          · have hq0 : q = (⟨p.x, p.y⟩ : Point) := by simpa using h'
            have hless : getGrayscale img p.x p.y < 230 := by omega
            subst hq0
            exact ⟨hin, hless, hedge⟩
          · exact h'
        refine ⟨⟨?_, ?_, ?_, ?_⟩, vset_self _ _ _⟩
        · intro q hq
          rw [allPts_append_single] at hq
          rcases List.mem_append.mp hq with h' | h'
          · exact vset_mono _ _ _ _ _ (w3 _ _ (vset_mono _ _ _ _ _ (i1 q h')))
          · exact vset_mono _ _ _ _ _ (w1 q h')
        · rw [allPts_append_single, List.nodup_append]
          exact ⟨i2, w2, fun q hqold hqnew => hnewold q hqnew hqold⟩
        · intro q hq
          rw [allPts_append_single] at hq
          rcases List.mem_append.mp hq with h' | h'
          · exact i3 q h'
          · exact hprops q h'
        · intro q hq hqin hqdark hqsel
          rw [allPts_append_single]
          rcases vset_eq_or _ _ _ _ _ hq with h' | h'
          · rcases w4 _ _ h' with h'' | h''
            · rcases vset_eq_or _ _ _ _ _ h'' with h3 | h3
              · exact List.mem_append_left _ (i4 q h3 hqin hqdark hqsel)
              · refine List.mem_append_right _ ?_
                have : q = (⟨p.x, p.y⟩ : Point) := by
                  cases q
                  simp only at h3
                  rw [h3.1, h3.2]
                rw [this]
                exact hseedmem
            · exact List.mem_append_right _ h''
          · refine List.mem_append_right _ ?_
            have : q = (⟨p.x, p.y⟩ : Point) := by
              cases q
              simp only at h'
              rw [h'.1, h'.2]
            rw [this]
            exact hseedmem
      · rename_i hnedge
        refine ⟨⟨fun q hq => vset_mono _ _ _ _ _ (i1 q hq), i2, i3, ?_⟩, vset_self _ _ _⟩
        intro q hq hqin hqdark hqsel
        rcases vset_eq_or _ _ _ _ _ hq with h' | h'
        · exact i4 q h' hqin hqdark hqsel
        · exfalso
          rw [h'.1, h'.2] at hqsel
          exact hnedge hqsel

/-- One fill-pass scan step preserves the pass invariant and marks the
scanned pixel. -/
theorem fillStep_inv (img : Img) (st : V × List Path) (p : Point)
    (hin : InB img p.x p.y) (h : FillInv img st) :
    FillInv img (fillStep img st p) ∧ (fillStep img st p).1 p.x p.y = true := by
  obtain ⟨i1, i2, i3, i4⟩ := h
  simp only [fillStep, floodFill]
  split
  · rename_i hv
    exact ⟨⟨i1, i2, i3, i4⟩, hv⟩
  · rename_i hnv
    have hpf : st.1 p.x p.y = false := by
      cases hb : st.1 p.x p.y
      · rfl
      · exact absurd hb hnv
    split
    · rename_i hbright
      refine ⟨⟨fun q hq => vset_mono _ _ _ _ _ (i1 q hq), i2, i3, ?_⟩, vset_self _ _ _⟩
      intro q hq hqin hqdark hqsel
      rcases vset_eq_or _ _ _ _ _ hq with h' | h'
      · exact i4 q h' hqin hqdark hqsel
      · exfalso
        rw [h'.1, h'.2] at hqdark
        omega
    · rename_i hdark
      split
      · rename_i hnedge
        have hw := floodFillAux_walk img (img.width * img.height + 1)
          [⟨p.x, p.y⟩] [⟨p.x, p.y⟩] (vset st.1 p.x p.y)
          (by intro q hq; simp at hq; subst hq; exact vset_self _ _ _)
          (List.nodup_singleton _)
        obtain ⟨w1, w2, w3, w4, w5, w6, w7⟩ := hw
        have hseedmem : (⟨p.x, p.y⟩ : Point) ∈
            (floodFillAux img (img.width * img.height + 1)
              [⟨p.x, p.y⟩] [⟨p.x, p.y⟩] (vset st.1 p.x p.y)).1 :=
          w5 _ (by simp)
        have hnewold : ∀ q ∈ (floodFillAux img (img.width * img.height + 1)
            [⟨p.x, p.y⟩] [⟨p.x, p.y⟩] (vset st.1 p.x p.y)).1, q ∉ allPts st.2 := by
          intro q hq hqold
          have hqv : st.1 q.x q.y = true := i1 q hqold
          rcases w7 q hq with h' | h'
          · have : q = (⟨p.x, p.y⟩ : Point) := by simpa using h'
            rw [this] at hqv
            rw [hqv] at hpf
            cases hpf
          · rw [vset_false _ _ _ _ _ h'] at hqv
            cases hqv
        have hprops : ∀ q ∈ (floodFillAux img (img.width * img.height + 1)
            [⟨p.x, p.y⟩] [⟨p.x, p.y⟩] (vset st.1 p.x p.y)).1,
            InB img q.x q.y ∧ getGrayscale img q.x q.y < 230 := by
          intro q hq
          rcases w6 q hq with h' | h'
          · have hq0 : q = (⟨p.x, p.y⟩ : Point) := by simpa using h'
            have hless : getGrayscale img p.x p.y < 230 := by omega
            subst hq0
            exact ⟨hin, hless⟩
          · exact h'
        refine ⟨⟨?_, ?_, ?_, ?_⟩, vset_self _ _ _⟩
        · intro q hq
          rw [allPts_append_single] at hq
          rcases List.mem_append.mp hq with h' | h'
          · exact vset_mono _ _ _ _ _ (w3 _ _ (vset_mono _ _ _ _ _ (i1 q h')))
          · exact vset_mono _ _ _ _ _ (w1 q h')
        · rw [allPts_append_single, List.nodup_append]
          exact ⟨i2, w2, fun q hqold hqnew => hnewold q hqnew hqold⟩
        · intro q hq
          rw [allPts_append_single] at hq
          rcases List.mem_append.mp hq with h' | h'
          · exact i3 q h'
          · exact ⟨(hprops q h').1, (hprops q h').2, trivial⟩
        · intro q hq hqin hqdark hqsel
          rw [allPts_append_single]
          rcases vset_eq_or _ _ _ _ _ hq with h' | h'
          · rcases w4 _ _ h' with h'' | h''
            · rcases vset_eq_or _ _ _ _ _ h'' with h3 | h3
              · exact List.mem_append_left _ (i4 q h3 hqin hqdark hqsel)
              · refine List.mem_append_right _ ?_
                have : q = (⟨p.x, p.y⟩ : Point) := by
                  cases q
                  simp only at h3
                  rw [h3.1, h3.2]
                rw [this]
                exact hseedmem
            · exact List.mem_append_right _ h''
          · refine List.mem_append_right _ ?_
            have : q = (⟨p.x, p.y⟩ : Point) := by
              cases q
              simp only at h'
              rw [h'.1, h'.2]
            rw [this]
            exact hseedmem
      · rename_i hedge
        refine ⟨⟨fun q hq => vset_mono _ _ _ _ _ (i1 q hq), i2, i3, ?_⟩, vset_self _ _ _⟩
        intro q hq hqin hqdark hqsel
        rcases vset_eq_or _ _ _ _ _ hq with h' | h'
        · exact i4 q h' hqin hqdark hqsel
        · exfalso
          rw [h'.1, h'.2] at hqsel
          have hT : isEdgePixel img p.x p.y = true := not_not.mp hedge
          rw [hT] at hqsel
          cases hqsel

/-- A monotone step keeps visited pixels visited through the whole fold. -/
theorem foldl_visited_mono (step : V × List Path → Point → V × List Path)
    (hmono : ∀ st p a b, st.1 a b = true → (step st p).1 a b = true) :
    ∀ (L : List Point) (st : V × List Path) (a b : Int),
      st.1 a b = true → (L.foldl step st).1 a b = true := by
  intro L
  induction L with
  | nil => exact fun st a b h => h
  | cons p L ih => exact fun st a b h => ih (step st p) a b (hmono st p a b h)

/-- Folding an invariant-preserving, pixel-marking step over a list of
in-bounds pixels preserves the invariant and marks every listed pixel. -/
theorem foldPass_inv (img : Img) (step : V × List Path → Point → V × List Path)
    (Inv : V × List Path → Prop)
    (hmono : ∀ st p a b, st.1 a b = true → (step st p).1 a b = true)
    (hstep : ∀ st p, InB img p.x p.y → Inv st →
      Inv (step st p) ∧ (step st p).1 p.x p.y = true) :
    ∀ (L : List Point) (st : V × List Path),
      (∀ p ∈ L, InB img p.x p.y) → Inv st →
      Inv (L.foldl step st) ∧ ∀ p ∈ L, (L.foldl step st).1 p.x p.y = true := by
  intro L
  induction L with
  | nil =>
    intro st _ hinv
    exact ⟨hinv, by simp⟩
  | cons p L ih =>
    intro st hin hinv
    obtain ⟨h1, h2⟩ := hstep st p (hin p (by simp)) hinv
    obtain ⟨g1, g2⟩ := ih (step st p) (fun q hq => hin q (by simp [hq])) h1
    refine ⟨g1, ?_⟩
    intro q hq
    rcases List.mem_cons.mp hq with hq' | hq'
    · subst hq'
      exact foldl_visited_mono step hmono L (step st q) q.x q.y h2
    · exact g2 q hq'

/-- The boundary pass collects exactly the in-bounds dark edge pixels, with
no duplicates.  This is the full characterization from which C3 and C6
follow. -/
theorem extractOutlinePaths_exact (img : Img) (t : Nat) :
    (∀ p : Point, p ∈ allPts (extractOutlinePaths img t) ↔
      (InB img p.x p.y ∧ getGrayscale img p.x p.y < 230 ∧
        isEdgePixel img p.x p.y = true)) ∧
      (allPts (extractOutlinePaths img t)).Nodup := by
  have h0 : OutInv img ((fun _ _ => false), []) := by
    refine ⟨?_, ?_, ?_, ?_⟩
    · intro p hp
      simp [allPts] at hp
    · simp [allPts]
    · intro p hp
      simp [allPts] at hp
    · intro p hp
      cases hp
  obtain ⟨hInv, hcov⟩ := foldPass_inv img (outStep img) (OutInv img)
    (outStep_mono img) (outStep_inv img)
    (scanPts img.width img.height) ((fun _ _ => false), [])
    (fun p hp => by
      cases p with
      | mk px py =>
        exact mem_scanPts.mp hp)
    h0
  have hext : extractOutlinePaths img t =
      ((scanPts img.width img.height).foldl (outStep img) ((fun _ _ => false), [])).2 := rfl
  constructor
  · intro p
    constructor
    · intro hmem
      rw [hext] at hmem
      exact hInv.2.2.1 p hmem
    · rintro ⟨hin, hdark, hedge⟩
      have hscan : p ∈ scanPts img.width img.height := by
        cases p with
        | mk px py =>
          exact mem_scanPts.mpr hin
      rw [hext]
      exact hInv.2.2.2 p (hcov p hscan) hin hdark hedge
  · rw [hext]
    exact hInv.2.1

/-- The fill pass collects every in-bounds dark non-edge pixel (and only
in-bounds dark pixels). -/
theorem extractFillRegions_cover (img : Img) (t : Nat) :
    (∀ p : Point, InB img p.x p.y → getGrayscale img p.x p.y < 230 →
      isEdgePixel img p.x p.y = false → p ∈ allPts (extractFillRegions img t)) ∧
      (∀ p ∈ allPts (extractFillRegions img t),
        InB img p.x p.y ∧ getGrayscale img p.x p.y < 230) := by
  have h0 : FillInv img ((fun _ _ => false), []) := by
    refine ⟨?_, ?_, ?_, ?_⟩
    · intro p hp
      simp [allPts] at hp
    · simp [allPts]
    · intro p hp
      simp [allPts] at hp
    · intro p hp
      cases hp
  obtain ⟨hInv, hcov⟩ := foldPass_inv img (fillStep img) (FillInv img)
    (fillStep_mono img) (fillStep_inv img)
    (scanPts img.width img.height) ((fun _ _ => false), [])
    (fun p hp => by
      cases p with
      | mk px py =>
        exact mem_scanPts.mp hp)
    h0
  have hext : extractFillRegions img t =
      ((scanPts img.width img.height).foldl (fillStep img) ((fun _ _ => false), [])).2 := rfl
  constructor
  · intro p hin hdark hnedge
    have hscan : p ∈ scanPts img.width img.height := by
      cases p with
      | mk px py =>
        exact mem_scanPts.mpr hin
    rw [hext]
    exact hInv.2.2.2 p (hcov p hscan) hin hdark hnedge
  · intro p hp
    rw [hext] at hp
    exact ⟨(hInv.2.2.1 p hp).1, (hInv.2.2.1 p hp).2.1⟩

/-- C6: within a single boundary pass, the points collected across all
paths returned by `extractOutlinePaths` contain no duplicate, and every
collected point is dark (grayscale below the 230 background cutoff). -/
theorem C6_outline_visit_once (img : Img) (t : Nat) :
    (allPts (extractOutlinePaths img t)).Nodup ∧
      ∀ p ∈ allPts (extractOutlinePaths img t), getGrayscale img p.x p.y < 230 := by
  obtain ⟨hiff, hnd⟩ := extractOutlinePaths_exact img t
  exact ⟨hnd, fun p hp => (hiff p).mp hp |>.2.1⟩

set_option maxRecDepth 10000 in
/-- Closed instance of C6 on the 3×3 all-dark grid: the collected pixel
`(2,1)` is dark. -/
theorem C6_witness : getGrayscale img3 2 1 < 230 :=
  (C6_outline_visit_once img3 128).2 ⟨2, 1⟩ (by decide)

set_option maxRecDepth 10000 in
/-- C3 counterexample: on the 3×3 all-dark grid the pixel `(2,1)` is a
boundary pixel (it is collected by the boundary pass and `isEdgePixel`
holds), yet the flood fill also collects it — `floodFill` only tests
darkness, not boundary-ness, so a fill region does contain a boundary
pixel and the pixel is classified as both. -/
theorem C3_counterexample :
    (⟨2, 1⟩ : Point) ∈ allPts (extractOutlinePaths img3 128) ∧
      (⟨2, 1⟩ : Point) ∈ allPts (extractFillRegions img3 128) ∧
      isEdgePixel img3 2 1 = true := by
  refine ⟨by decide, by decide, by decide⟩

/-- C3 amended: every in-bounds dark pixel is classified — it is collected
by the boundary pass or by the fill pass (never neither), and the boundary
pass collects it exactly when it is an edge pixel; but the two passes are
not exclusive: a fill region may also contain boundary pixels (see the
counterexample), since `floodFill` never tests `isEdgePixel`. -/
theorem C3_classification (img : Img) (t : Nat) (p : Point)
    (hin : InB img p.x p.y) (hdark : getGrayscale img p.x p.y < 230) :
    (p ∈ allPts (extractOutlinePaths img t) ∨ p ∈ allPts (extractFillRegions img t)) ∧
      (p ∈ allPts (extractOutlinePaths img t) ↔ isEdgePixel img p.x p.y = true) := by
  have hiff := (extractOutlinePaths_exact img t).1 p
  have hcov := (extractFillRegions_cover img t).1 p
  cases hedge : isEdgePixel img p.x p.y
  · refine ⟨Or.inr (hcov hin hdark hedge), ?_⟩
    constructor
    · intro hmem
      have h2 := (hiff.mp hmem).2.2
      rw [hedge] at h2
      exact h2
    · intro hT
      cases hT
  · refine ⟨Or.inl (hiff.mpr ⟨hin, hdark, hedge⟩), ?_⟩
    constructor
    · intro _
      rfl
    · intro _
      exact hiff.mpr ⟨hin, hdark, hedge⟩

set_option maxRecDepth 10000 in
/-- Closed instance of C3 amended at the interior pixel `(1,1)` of the 3×3
all-dark grid. -/
theorem C3_witness :
    ((⟨1, 1⟩ : Point) ∈ allPts (extractOutlinePaths img3 128) ∨
      (⟨1, 1⟩ : Point) ∈ allPts (extractFillRegions img3 128)) ∧
      ((⟨1, 1⟩ : Point) ∈ allPts (extractOutlinePaths img3 128) ↔
        isEdgePixel img3 1 1 = true) :=
  C3_classification img3 128 ⟨1, 1⟩ (by decide) (by decide)

end GoGcode
